import Mathlib

/-!
Shallow embedding of `src/main.py` (PEMDASParsing): a tokenizer, a
precedence-driven binary-syntax-tree builder, an evaluator and a
stringifier for arithmetic expressions.

Modelling conventions:
* Python strings are `List Char`; tokens are the raw substrings, as in the
  source (the source has no token datatype, only strings).
* Python floats are modelled by `ℚ`.  Every numeric computation any
  theorem in this file performs is exact in IEEE double precision as well,
  so the rational model agrees with the source on all inputs mentioned in
  the theorems.  Python raises `ZeroDivisionError` on division by zero
  (also for floats), which is modelled by an error result.
* Python exceptions are modelled by `Except Err`; each `Err` constructor
  corresponds to one concrete `raise` site (or builtin exception) of the
  source.
* The mutual recursion `parse` / `parse_tlt_expression` recurses through
  strings, so the embedding uses an explicit fuel parameter; `outOfFuel`
  is a model artifact that never occurs at sufficient fuel.
-/

/-- Errors of the program.  `notABracketExpression`/`unbalancedBrackets`/
`emptyExpression`/`noOperatorFound`/`numberFormat` model the `ValueError`s
raised in `main.py` (each carries the data interpolated into the message);
`indexError` models Python `IndexError` from indexing an empty string;
`zeroDivision` models `ZeroDivisionError`; `mathDomain` models the
`ValueError` of `math.pow`; `attributeError` models calling `evaluate` on a
`None` child; `nonNumericResult` models `evaluate` falling through all
operator branches and implicitly returning `None`; `nonRationalPow` marks
the one spot where `math.pow` returns an irrational float that the
rational model cannot represent (no theorem depends on that branch);
`outOfFuel` is the fuel artifact. -/
inductive Err where
  | indexError
  | notABracketExpression (s : List Char)
  | unbalancedBrackets (s : List Char)
  | emptyExpression
  | noOperatorFound
  | numberFormat (s : List Char)
  | zeroDivision
  | mathDomain
  | attributeError
  | nonNumericResult
  | nonRationalPow
  | outOfFuel
  deriving DecidableEq

/-- `PRECEDENCE = {'^': 0, '*': 1, '/': 2, '+': 3, '-': 4}` from `main.py`,
as a lookup returning `none` for strings that are not operator tokens. -/
def PRECEDENCE (t : List Char) : Option Nat :=
  if t = ['^'] then some 0
  else if t = ['*'] then some 1
  else if t = ['/'] then some 2
  else if t = ['+'] then some 3
  else if t = ['-'] then some 4
  else none

/-- The five operator characters, in the order `main.py` tests them. -/
def opChars : List Char := ['+', '-', '*', '/', '^']

/-- Models `re.match('[0-9]+(\\.[0-9]+)?', input_str)`: the maximal leading
run of digits, optionally extended by a dot and a further nonempty maximal
digit run.  Returns `none` when the string does not start with a digit. -/
def matchNumber (s : List Char) : Option (List Char) :=
  let ds := s.takeWhile (·.isDigit)
  if ds = [] then none
  else
    match s.dropWhile (·.isDigit) with
    | '.' :: r2 =>
      let fs := r2.takeWhile (·.isDigit)
      if fs = [] then some ds else some (ds ++ '.' :: fs)
    | _ => some ds

/-- The depth-counter loop of `get_bracket_token`: walks the characters
after the initial `'('` with the counter starting at 1, and returns the
offset of the character at which the counter first becomes 0 (`none` if it
never does). -/
def bracketAux : Int → List Char → Option Nat
  | _, [] => none
  | cur, c :: cs =>
    let cur' := if c = '(' then cur + 1 else if c = ')' then cur - 1 else cur
    if cur' = 0 then some 0 else (bracketAux cur' cs).map (· + 1)

/-- `get_bracket_token` from `main.py`.  An empty string hits `string[0]`
and raises `IndexError`; a string not starting with `'('` raises the
"doesn't begin with a bracket expression" `ValueError`; otherwise the
prefix up to and including the parenthesis closing the initial one is
returned, or the "missing closing bracket" `ValueError` if there is none. -/
def get_bracket_token (s : List Char) : Except Err (List Char) :=
  match s with
  | [] => .error .indexError
  | c :: rest =>
    if c = '(' then
      match bracketAux 1 rest with
      | some j => .ok ((c :: rest).take (j + 2))
      | none => .error (.unbalancedBrackets (c :: rest))
    else .error (.notABracketExpression (c :: rest))

/-- The `while input_str:` loop of `create_toplevel_tokens`, with fuel;
each iteration consumes at least one character, so fuel `s.length`
suffices (see `create_toplevel_tokens`). -/
def tokenizeF : Nat → List Char → Except Err (List (List Char))
  | _, [] => .ok []
  | 0, _ :: _ => .error .outOfFuel
  | n + 1, c :: rest =>
    if c = ' ' then tokenizeF n rest
    else
      match matchNumber (c :: rest) with
      | some num => (tokenizeF n ((c :: rest).drop num.length)).map (num :: ·)
      | none =>
        if c ∈ opChars then (tokenizeF n rest).map ([c] :: ·)
        else
          match get_bracket_token (c :: rest) with
          | .ok b => (tokenizeF n ((c :: rest).drop b.length)).map (b :: ·)
          | .error e => .error e

/-- `create_toplevel_tokens` from `main.py`. -/
def create_toplevel_tokens (s : List Char) : Except Err (List (List Char)) :=
  tokenizeF s.length s

/-- One iteration of the backward loop in `get_operator`, at index `i`:
replace the candidate `(out, cur)` exactly when the token at `i` is an
operator whose precedence is strictly greater than `cur`. -/
def stepOp (ts : List (List Char)) (i : Nat) : Option Nat × Int → Option Nat × Int
  | (out, cur) =>
    match PRECEDENCE (ts.getD i []) with
    | some r => if cur < (r : Int) then (some i, (r : Int)) else (out, cur)
    | none => (out, cur)

/-- `for i in range(len(tokens)-1, -1, -1)`: `scanLoop ts k st` performs the
iterations at indices `k-1, k-2, ..., 0`, starting from state `st`. -/
def scanLoop (ts : List (List Char)) : Nat → Option Nat × Int → Option Nat × Int
  | 0, st => st
  | k + 1, st => scanLoop ts k (stepOp ts k st)

/-- `get_operator` from `main.py`: backward scan with `out = None`,
`current_prec = -1`. -/
def get_operator (ts : List (List Char)) : Option Nat :=
  (scanLoop ts ts.length (none, -1)).1

/-- Specification-side companion of `scanLoop` used to characterize
`get_operator`: `bestBelow ts k cur` is the winner of the backward scan
over indices below `k` against an incoming candidate precedence `cur`
(index and precedence of the chosen operator). -/
def bestBelow (ts : List (List Char)) : Nat → Int → Option (Nat × Nat)
  | 0, _ => none
  | k + 1, cur =>
    match PRECEDENCE (ts.getD k []) with
    | some r =>
      if cur < (r : Int) then
        match bestBelow ts k (r : Int) with
        | some p => some p
        | none => some (k, r)
      else bestBelow ts k cur
    | none => bestBelow ts k cur

/-- Value of a digit string, used to model `float()` on numeral tokens. -/
def digitsToNat (ds : List Char) : Nat :=
  ds.foldl (fun a c => 10 * a + (c.toNat - '0'.toNat)) 0

/-- Decides whether `s` matches the tokenizer's full numeral grammar
`[0-9]+(\.[0-9]+)?` (the whole string, not just a prefix). -/
def isNumeral (s : List Char) : Bool :=
  (!(s.takeWhile (·.isDigit)).isEmpty) &&
    (match s.dropWhile (·.isDigit) with
     | [] => true
     | '.' :: r2 => !r2.isEmpty && r2.all (·.isDigit)
     | _ => false)

/-- Addition on `ℚ`, written with the kernel-computable smart constructor
`mkRat`; equal to `· + ·` by `qadd_eq` below. -/
def qadd (a b : ℚ) : ℚ := mkRat (a.num * b.den + b.num * a.den) (a.den * b.den)

/-- Subtraction on `ℚ` via `mkRat`; equal to `· - ·` by `qsub_eq` below. -/
def qsub (a b : ℚ) : ℚ := mkRat (a.num * b.den - b.num * a.den) (a.den * b.den)

/-- Multiplication on `ℚ` via `mkRat`; equal to `· * ·` by `qmul_eq` below. -/
def qmul (a b : ℚ) : ℚ := mkRat (a.num * b.num) (a.den * b.den)

/-- Division on `ℚ` via `Rat.divInt`; equal to `· / ·` by `qdiv_eq` below. -/
def qdiv (a b : ℚ) : ℚ := Rat.divInt (a.num * b.den) (a.den * b.num)

/-- Natural powers on `ℚ` by repeated `qmul`; equal to `· ^ ·` by
`qpowN_eq` below. -/
def qpowN (a : ℚ) : Nat → ℚ
  | 0 => 1
  | n + 1 => qmul (qpowN a n) a

/-- Models Python `float(text)` as used by `parse_tlt_expression`.  In the
program `float` is only ever applied to tokenizer tokens: numeral tokens
(where `float` succeeds with the decimal value, modelled exactly in `ℚ`)
and operator tokens (where `float` raises `ValueError`, modelled as
`none`).  `float`'s wider domain (signs, exponents, `"inf"`, ...) is
unreachable in the program and not modelled. -/
def parseNum (s : List Char) : Option ℚ :=
  if isNumeral s then
    some
      (match s.dropWhile (·.isDigit) with
       | '.' :: fs =>
         mkRat (digitsToNat (s.takeWhile (·.isDigit)) * 10 ^ fs.length + digitsToNat fs : Nat) (10 ^ fs.length)
       | _ => (digitsToNat (s.takeWhile (·.isDigit)) : ℚ))
  else none

/-- The `BSTNode` class: `BSTNode(left, op, right)` with
`left, right : Optional[BSTNode]` and `op : Union[str, float]`.  The four
constructors enumerate the `None`/`non-None` combinations of the two child
fields, so every state of the Python object is representable, including
the ill-formed ones (one child only, operator with missing children,
number with children). -/
inductive BSTNode where
  | mk0 (op : (List Char) ⊕ ℚ)
  | mkL (left : BSTNode) (op : (List Char) ⊕ ℚ)
  | mkR (op : (List Char) ⊕ ℚ) (right : BSTNode)
  | mkLR (left : BSTNode) (op : (List Char) ⊕ ℚ) (right : BSTNode)
  deriving DecidableEq

/-- Models `math.pow` on rationals.  Integer exponents are exact;
`math.pow(0.0, negative)` raises `ValueError` (`mathDomain`).  A
non-integer exponent generally has an irrational float result which `ℚ`
cannot represent; that branch is marked `nonRationalPow` and no theorem
in this file depends on it. -/
def powQ (a b : ℚ) : Except Err ℚ :=
  if b.den = 1 then
    if 0 ≤ b.num then .ok (qpowN a b.num.toNat)
    else if a = 0 then .error .mathDomain
    else .ok (qdiv 1 (qpowN a b.num.natAbs))
  else .error .nonRationalPow

/-- `evaluate` from `main.py`.  `is_number` (i.e. `type(op) == float`) is
checked first and ignores the children; then the five operator strings are
tried in source order, evaluating the left child before the right one; a
`None` child raises (`attributeError`); an unrecognized operator string
falls through every branch and returns Python `None`
(`nonNumericResult`). -/
def evaluate : BSTNode → Except Err ℚ
  | .mk0 (.inr q) => .ok q
  | .mkL _ (.inr q) => .ok q
  | .mkR (.inr q) _ => .ok q
  | .mkLR _ (.inr q) _ => .ok q
  | .mk0 (.inl o) =>
    if o = ['+'] ∨ o = ['-'] ∨ o = ['*'] ∨ o = ['/'] ∨ o = ['^'] then .error .attributeError
    else .error .nonNumericResult
  | .mkL l (.inl o) =>
    if o = ['+'] ∨ o = ['-'] ∨ o = ['*'] ∨ o = ['/'] ∨ o = ['^'] then
      (evaluate l).bind (fun _ => .error .attributeError)
    else .error .nonNumericResult
  | .mkR (.inl o) _ =>
    if o = ['+'] ∨ o = ['-'] ∨ o = ['*'] ∨ o = ['/'] ∨ o = ['^'] then .error .attributeError
    else .error .nonNumericResult
  | .mkLR l (.inl o) r =>
    if o = ['+'] then
      (evaluate l).bind fun a => (evaluate r).bind fun b => .ok (qadd a b)
    else if o = ['-'] then
      (evaluate l).bind fun a => (evaluate r).bind fun b => .ok (qsub a b)
    else if o = ['*'] then
      (evaluate l).bind fun a => (evaluate r).bind fun b => .ok (qmul a b)
    else if o = ['/'] then
      (evaluate l).bind fun a => (evaluate r).bind fun b =>
        if b = 0 then .error .zeroDivision else .ok (qdiv a b)
    else if o = ['^'] then
      (evaluate l).bind fun a => (evaluate r).bind fun b => powQ a b
    else .error .nonNumericResult

/-- Renders `q` the way a Python f-string renders the equal float.  For a
value with a short exact decimal expansion (every value this file ever
formats) `repr` prints the minimal decimal form, integral floats getting a
trailing `.0`; this is reproduced exactly.  Values whose `repr` would use
scientific notation or rounding get an inert fallback that no theorem
relies on. -/
def formatNum (q : ℚ) : List Char :=
  let sign : List Char := if q.num < 0 then ['-'] else []
  let n := q.num.natAbs
  let d := q.den
  if d = 1 then sign ++ Nat.toDigits 10 n ++ ['.', '0']
  else
    match (List.range 40).find? (fun k => 10 ^ (k + 1) % d = 0) with
    | some k0 =>
      let k := k0 + 1
      let fds := Nat.toDigits 10 (n % d * 10 ^ k / d)
      sign ++ Nat.toDigits 10 (n / d) ++ '.' :: (List.replicate (k - fds.length) '0' ++ fds)
    | none => sign ++ Nat.toDigits 10 n ++ '/' :: Nat.toDigits 10 d

/-- Python's `str(None)`, which `__str__` interpolates for a missing child. -/
def noneStr : List Char := ['N', 'o', 'n', 'e']

/-- `BSTNode.__str__` from `main.py`: a number node (float `op`, children
ignored) renders as the float; otherwise `f"({left} {op} {right})"` with a
missing child rendering as `None`. -/
def stringify : BSTNode → List Char
  | .mk0 (.inr q) => formatNum q
  | .mkL _ (.inr q) => formatNum q
  | .mkR (.inr q) _ => formatNum q
  | .mkLR _ (.inr q) _ => formatNum q
  | .mk0 (.inl o) => '(' :: noneStr ++ ' ' :: o ++ ' ' :: noneStr ++ [')']
  | .mkL l (.inl o) => '(' :: stringify l ++ ' ' :: o ++ ' ' :: noneStr ++ [')']
  | .mkR (.inl o) r => '(' :: noneStr ++ ' ' :: o ++ ' ' :: stringify r ++ [')']
  | .mkLR l (.inl o) r => '(' :: stringify l ++ ' ' :: o ++ ' ' :: stringify r ++ [')']

/-- The mutually recursive pair `parse` (on `.inl`, a string) and
`parse_tlt_expression` (on `.inr`, a token list) from `main.py`, with fuel.
Every recursive call decrements the fuel once, so the recursion is
structural; `parseF` and `parse_tltF` below are the two entry points.
The token-list body is a faithful transcription: empty list raises;
a singleton that is an empty string hits `tokens[0][0]` (`IndexError`);
a singleton `'('...')'` recurses into its interior; any other singleton
goes to `float`; with several tokens, `if not pos:` makes both `None` and
index `0` raise `NoOperatorFound`; otherwise the list is split at `pos`
(left part first, as in the source). -/
def parseStep : Nat → (List Char) ⊕ (List (List Char)) → Except Err BSTNode
  | 0, _ => .error .outOfFuel
  | n + 1, .inl s => (create_toplevel_tokens s).bind fun ts => parseStep n (.inr ts)
  | _ + 1, .inr [] => .error .emptyExpression
  | n + 1, .inr [t] =>
    match t with
    | [] => .error .indexError
    | c :: cs =>
      if c = '(' ∧ (c :: cs).getLast? = some ')' then
        parseStep n (.inl (((c :: cs).drop 1).dropLast))
      else
        match parseNum (c :: cs) with
        | some q => .ok (.mk0 (.inr q))
        | none => .error (.numberFormat (c :: cs))
  | n + 1, .inr ts =>
    match get_operator ts with
    | none => .error .noOperatorFound
    | some pos =>
      if pos = 0 then .error .noOperatorFound
      else
        (parseStep n (.inr (ts.take pos))).bind fun l =>
          (parseStep n (.inr (ts.drop (pos + 1)))).bind fun r =>
            .ok (.mkLR l (.inl (ts.getD pos [])) r)

/-- `parse` from `main.py`, with fuel. -/
def parseF (n : Nat) (s : List Char) : Except Err BSTNode :=
  parseStep n (.inl s)

/-- `parse_tlt_expression` from `main.py`, with fuel. -/
def parse_tltF (n : Nat) (ts : List (List Char)) : Except Err BSTNode :=
  parseStep n (.inr ts)

/-- `evaluate_string` from `main.py`, with fuel. -/
def evaluate_stringF (n : Nat) (s : List Char) : Except Err ℚ :=
  (parseF n s).bind evaluate

/-- Whether `o` is one of the five operator strings. -/
def knownOp (o : List Char) : Bool :=
  (PRECEDENCE o).isSome

/-- The structural invariant of section 3 of the spec: a leaf holds a
float and has both child fields empty; an internal node holds one of the
five operator strings and has both children present, recursively
well-formed. -/
def wellFormed : BSTNode → Bool
  | .mk0 (.inr _) => true
  | .mkLR l (.inl o) r => knownOp o && wellFormed l && wellFormed r
  | _ => false

/-- Well-formed trees whose every leaf value renders (via `formatNum`,
i.e. the Python float f-string) as a numeral token that `float` reads back
to the same value.  This is the hypothesis under which the canonical form
round-trips. -/
def goodTree : BSTNode → Bool
  | .mk0 (.inr q) => isNumeral (formatNum q) && decide (parseNum (formatNum q) = some q)
  | .mkLR l (.inl o) r => knownOp o && goodTree l && goodTree r
  | _ => false

/-- Enough fuel to re-parse the canonical form of `t` (a model-side
measure; any larger fuel works as well). -/
def needFuel : BSTNode → Nat
  | .mkLR l _ r => max (needFuel l) (needFuel r) + 3
  | _ => 1

deriving instance DecidableEq for Except

/-- Parenthesis balance: count of `'('` minus count of `')'`. -/
def pdelta (s : List Char) : Int :=
  (s.count '(' : Int) - (s.count ')' : Int)

/-- Balanced strings: zero total balance, nonnegative on every prefix. -/
def Bal (s : List Char) : Prop :=
  pdelta s = 0 ∧ ∀ m : Nat, 0 ≤ pdelta (s.take m)

/-! ## Bridging lemmas: the executable rational operations are the field
operations of `ℚ` -/

theorem qadd_eq (a b : ℚ) : qadd a b = a + b := (Rat.add_def' a b).symm

theorem qsub_eq (a b : ℚ) : qsub a b = a - b := (Rat.sub_def' a b).symm

theorem qmul_eq (a b : ℚ) : qmul a b = a * b := by
  rw [Rat.mul_def, Rat.normalize_eq_mkRat]; rfl

theorem qdiv_eq (a b : ℚ) : qdiv a b = a / b := (Rat.div_def' a b).symm

theorem qpowN_eq (a : ℚ) (n : Nat) : qpowN a n = a ^ n := by
  induction n with
  | zero => rfl
  | succ n ih => rw [qpowN, ih, qmul_eq, pow_succ]

/-! ## The backward operator scan of `get_operator` -/

theorem scanLoop_eq_bestBelow (ts : List (List Char)) :
    ∀ k (out : Option Nat) (cur : Int), scanLoop ts k (out, cur) =
      match bestBelow ts k cur with
      | some (i, r) => (some i, (r : Int))
      | none => (out, cur) := by
  intro k
  induction k with
  | zero => intro out cur; rfl
  | succ k ih =>
    intro out cur
    show scanLoop ts k (stepOp ts k (out, cur)) = _
    rcases h : PRECEDENCE (ts.getD k []) with _ | r
    · rw [show stepOp ts k (out, cur) = (out, cur) by unfold stepOp; rw [h]]
      rw [ih out cur]
      simp only [bestBelow, h]
    · by_cases hc : cur < (r : Int)
      · rw [show stepOp ts k (out, cur) = (some k, (r : Int)) by unfold stepOp; rw [h]; simp [hc]]
        rw [ih (some k) (r : Int)]
        simp only [bestBelow, h, if_pos hc]
        rcases hb : bestBelow ts k (r : Int) with _ | ⟨i, r'⟩ <;> simp [hb]
      · rw [show stepOp ts k (out, cur) = (out, cur) by unfold stepOp; rw [h]; simp [hc]]
        rw [ih out cur]
        simp only [bestBelow, h, if_neg hc]

theorem bestBelow_none_iff (ts : List (List Char)) :
    ∀ k cur, bestBelow ts k cur = none ↔
      ∀ j, j < k → ∀ r : Nat, PRECEDENCE (ts.getD j []) = some r → (r : Int) ≤ cur := by
  intro k
  induction k with
  | zero =>
    intro cur
    constructor
    · intro _ j hj; omega
    · intro _; rfl
  | succ k ih =>
    intro cur
    rcases h : PRECEDENCE (ts.getD k []) with _ | r
    · simp only [bestBelow, h]
      rw [ih cur]
      constructor
      · intro H j hj r' hr'
        rcases Nat.lt_succ_iff_lt_or_eq.mp hj with hj' | rfl
        · exact H j hj' r' hr'
        · rw [h] at hr'; cases hr'
      · intro H j hj r' hr'
        exact H j (Nat.lt_succ_of_lt hj) r' hr'
    · by_cases hc : cur < (r : Int)
      · simp only [bestBelow, h, if_pos hc]
        constructor
        · intro H
          exfalso
          rcases hb : bestBelow ts k (r : Int) with _ | p <;> rw [hb] at H <;> cases H
        · intro H
          exfalso
          have := H k (Nat.lt_succ_self k) r h
          omega
      · simp only [bestBelow, h, if_neg hc]
        rw [ih cur]
        constructor
        · intro H j hj r' hr'
          rcases Nat.lt_succ_iff_lt_or_eq.mp hj with hj' | rfl
          · exact H j hj' r' hr'
          · rw [h] at hr'; cases hr'; omega
        · intro H j hj r' hr'
          exact H j (Nat.lt_succ_of_lt hj) r' hr'

theorem bestBelow_some_props (ts : List (List Char)) :
    ∀ k cur i r, bestBelow ts k cur = some (i, r) →
      i < k ∧ PRECEDENCE (ts.getD i []) = some r ∧ cur < (r : Int) ∧
        ∀ j, j < k → ∀ r' : Nat, PRECEDENCE (ts.getD j []) = some r' → cur < (r' : Int) →
          r' ≤ r ∧ (r' = r → j ≤ i) := by
  intro k
  induction k with
  | zero => intro cur i r H; cases H
  | succ k ih =>
    intro cur i r H
    rcases h : PRECEDENCE (ts.getD k []) with _ | s
    · simp only [bestBelow, h] at H
      obtain ⟨h1, h2, h3, h4⟩ := ih cur i r H
      refine ⟨Nat.lt_succ_of_lt h1, h2, h3, ?_⟩
      intro j hj r' hr' hcr
      rcases Nat.lt_succ_iff_lt_or_eq.mp hj with hj' | rfl
      · exact h4 j hj' r' hr' hcr
      · rw [h] at hr'; cases hr'
    · by_cases hc : cur < (s : Int)
      · simp only [bestBelow, h, if_pos hc] at H
        rcases hb : bestBelow ts k (s : Int) with _ | ⟨i', r'⟩
        · rw [hb] at H
          cases H
          refine ⟨Nat.lt_succ_self k, h, hc, ?_⟩
          intro j hj r' hr' hcr
          rcases Nat.lt_succ_iff_lt_or_eq.mp hj with hj' | rfl
          · have := (bestBelow_none_iff ts k (r : Int)).mp hb j hj' r' hr'
            exact ⟨by omega, fun _ => by omega⟩
          · rw [h] at hr'; cases hr'
            exact ⟨Nat.le_refl _, fun _ => Nat.le_refl _⟩
        · rw [hb] at H
          cases H
          obtain ⟨h1, h2, h3, h4⟩ := ih (s : Int) i r hb
          refine ⟨Nat.lt_succ_of_lt h1, h2, lt_trans hc h3, ?_⟩
          intro j hj r' hr' hcr
          rcases Nat.lt_succ_iff_lt_or_eq.mp hj with hj' | rfl
          · by_cases hs : (s : Int) < (r' : Int)
            · exact h4 j hj' r' hr' hs
            · exact ⟨by omega, fun he => by omega⟩
          · rw [h] at hr'; cases hr'
            exact ⟨by omega, fun he => by omega⟩
      · simp only [bestBelow, h, if_neg hc] at H
        obtain ⟨h1, h2, h3, h4⟩ := ih cur i r H
        refine ⟨Nat.lt_succ_of_lt h1, h2, h3, ?_⟩
        intro j hj r' hr' hcr
        rcases Nat.lt_succ_iff_lt_or_eq.mp hj with hj' | rfl
        · exact h4 j hj' r' hr' hcr
        · rw [h] at hr'; cases hr'
          exact absurd hcr hc

theorem get_operator_some_iff (ts : List (List Char)) (i : Nat) :
    get_operator ts = some i ↔
      ∃ r : Nat, PRECEDENCE (ts.getD i []) = some r ∧ i < ts.length ∧
        ∀ j, j < ts.length → ∀ r' : Nat, PRECEDENCE (ts.getD j []) = some r' →
          r' ≤ r ∧ (r' = r → j ≤ i) := by
  constructor
  · intro H
    unfold get_operator at H
    rw [scanLoop_eq_bestBelow] at H
    rcases hb : bestBelow ts ts.length (-1) with _ | ⟨i', r⟩
    · rw [hb] at H; cases H
    · rw [hb] at H
      simp only [Option.some.injEq] at H
      subst H
      obtain ⟨h1, h2, _, h4⟩ := bestBelow_some_props ts ts.length (-1) i' r hb
      exact ⟨r, h2, h1, fun j hj r' hr' => h4 j hj r' hr' (by omega)⟩
  · rintro ⟨r, hr, hlen, hmax⟩
    unfold get_operator
    rw [scanLoop_eq_bestBelow]
    rcases hb : bestBelow ts ts.length (-1) with _ | ⟨i', r'⟩
    · exfalso
      have := (bestBelow_none_iff ts ts.length (-1)).mp hb i hlen r hr
      omega
    · obtain ⟨h1, h2, _, h4⟩ := bestBelow_some_props ts ts.length (-1) i' r' hb
      have ha := hmax i' h1 r' h2
      have hb2 := h4 i hlen r hr (by omega)
      have hrr : r' = r := Nat.le_antisymm ha.1 hb2.1
      have hii : i' = i := Nat.le_antisymm (ha.2 hrr) (hb2.2 hrr.symm)
      simp [hii]

theorem get_operator_none_iff (ts : List (List Char)) :
    get_operator ts = none ↔ ∀ t ∈ ts, PRECEDENCE t = none := by
  unfold get_operator
  rw [scanLoop_eq_bestBelow]
  rcases hb : bestBelow ts ts.length (-1) with _ | ⟨i, r⟩
  · constructor
    · intro _ t ht
      obtain ⟨j, hj, rfl⟩ := List.mem_iff_getElem.mp ht
      have hnone := (bestBelow_none_iff ts ts.length (-1)).mp hb j hj
      rcases hp : PRECEDENCE (ts.getD j []) with _ | r
      · rw [List.getD_eq_getElem ts [] hj] at hp
        exact hp
      · have := hnone r hp
        omega
    · intro _; rfl
  · constructor
    · intro H; cases H
    · intro H
      exfalso
      obtain ⟨h1, h2, _, _⟩ := bestBelow_some_props ts ts.length (-1) i r hb
      rw [List.getD_eq_getElem ts [] h1] at h2
      have := H (ts[i]) (List.getElem_mem h1) 
      rw [this] at h2
      cases h2

/-! ## Unfolding equations (all definitional) -/

theorem parseStep_zero (x : (List Char) ⊕ (List (List Char))) :
    parseStep 0 x = .error .outOfFuel := rfl

theorem parseF_succ (n : Nat) (s : List Char) :
    parseF (n + 1) s = (create_toplevel_tokens s).bind fun ts => parse_tltF n ts := rfl

theorem parse_tltF_nil (n : Nat) : parse_tltF (n + 1) [] = .error .emptyExpression := rfl

theorem parse_tltF_emptyTok (n : Nat) : parse_tltF (n + 1) [[]] = .error .indexError := rfl

theorem parse_tltF_single (n : Nat) (c : Char) (cs : List Char) :
    parse_tltF (n + 1) [c :: cs] =
      if c = '(' ∧ (c :: cs).getLast? = some ')' then parseF n (((c :: cs).drop 1).dropLast)
      else
        match parseNum (c :: cs) with
        | some q => .ok (.mk0 (.inr q))
        | none => .error (.numberFormat (c :: cs)) := rfl

theorem parse_tltF_multi (n : Nat) (a b : List Char) (l : List (List Char)) :
    parse_tltF (n + 1) (a :: b :: l) =
      match get_operator (a :: b :: l) with
      | none => .error .noOperatorFound
      | some pos =>
        if pos = 0 then .error .noOperatorFound
        else
          (parse_tltF n ((a :: b :: l).take pos)).bind fun lt =>
            (parse_tltF n ((a :: b :: l).drop (pos + 1))).bind fun rt =>
              .ok (.mkLR lt (.inl ((a :: b :: l).getD pos [])) rt) := rfl

theorem tokenizeF_nil (n : Nat) : tokenizeF n [] = .ok [] := by cases n <;> rfl

theorem tokenizeF_cons (n : Nat) (c : Char) (rest : List Char) :
    tokenizeF (n + 1) (c :: rest) =
      if c = ' ' then tokenizeF n rest
      else
        match matchNumber (c :: rest) with
        | some num => (tokenizeF n ((c :: rest).drop num.length)).map (num :: ·)
        | none =>
          if c ∈ opChars then (tokenizeF n rest).map ([c] :: ·)
          else
            match get_bracket_token (c :: rest) with
            | .ok b => (tokenizeF n ((c :: rest).drop b.length)).map (b :: ·)
            | .error e => .error e := rfl

/-! ## Further helper lemmas -/

theorem PRECEDENCE_some_cases {t : List Char} {r : Nat} (h : PRECEDENCE t = some r) :
    t = ['^'] ∨ t = ['*'] ∨ t = ['/'] ∨ t = ['+'] ∨ t = ['-'] := by
  unfold PRECEDENCE at h
  split_ifs at h with h1 h2 h3 h4 h5
  · exact Or.inl h1
  · exact Or.inr (Or.inl h2)
  · exact Or.inr (Or.inr (Or.inl h3))
  · exact Or.inr (Or.inr (Or.inr (Or.inl h4)))
  · exact Or.inr (Or.inr (Or.inr (Or.inr h5)))

theorem parseNum_op {t : List Char} {r : Nat} (h : PRECEDENCE t = some r) :
    parseNum t = none := by
  rcases PRECEDENCE_some_cases h with rfl | rfl | rfl | rfl | rfl <;> rfl

/-- C1 supporting instance check used by the witness. -/
theorem get_operator_skips_first_of_unique {ts : List (List Char)} {i : Nat}
    (h : get_operator ts = some i) : i < ts.length := by
  obtain ⟨r, _, hlen, _⟩ := (get_operator_some_iff ts i).mp h
  exact hlen

/-- C1: for every token sequence, `get_operator` selects exactly the
rightmost operator token of maximal precedence rank, under the ranks
`^`=0, `*`=1, `/`=2, `+`=3, `-`=4; it returns `none` exactly when no token
is an operator, so `Number` and `BracketGroup` tokens (rank `none`) are
never selected. -/
theorem C1_get_operator_rightmost_maximal (ts : List (List Char)) :
    (PRECEDENCE ['^'] = some 0 ∧ PRECEDENCE ['*'] = some 1 ∧ PRECEDENCE ['/'] = some 2 ∧
      PRECEDENCE ['+'] = some 3 ∧ PRECEDENCE ['-'] = some 4) ∧
    (get_operator ts = none ↔ ∀ t ∈ ts, PRECEDENCE t = none) ∧
    (∀ i : Nat, get_operator ts = some i ↔
      ∃ r : Nat, PRECEDENCE (ts.getD i []) = some r ∧ i < ts.length ∧
        ∀ j, j < ts.length → ∀ r' : Nat, PRECEDENCE (ts.getD j []) = some r' →
          r' ≤ r ∧ (r' = r → j ≤ i)) :=
  ⟨⟨rfl, rfl, rfl, rfl, rfl⟩, get_operator_none_iff ts, fun i => get_operator_some_iff ts i⟩

/-- Witness for C1 at the token list of `"1 + 2 * 3"`: the selected split
is the `+` at index 1 (the unique maximal-rank operator), not the
rightmost operator `*`. -/
theorem C1_witness :
    get_operator [['1'], ['+'], ['2'], ['*'], ['3']] = some 1 :=
  ((C1_get_operator_rightmost_maximal [['1'], ['+'], ['2'], ['*'], ['3']]).2.2 1).mpr
    ⟨3, rfl, by decide, by
      intro j hj r' hr'
      simp only [List.length_cons, List.length_nil] at hj
      interval_cases j <;> simp [PRECEDENCE, List.getD] at hr' <;> omega⟩

theorem exceptBind_ok {ε α β : Type} (a : α) (f : α → Except ε β) :
    (Except.ok a : Except ε α).bind f = f a := rfl

theorem exceptBind_error {ε α β : Type} (e : ε) (f : α → Except ε β) :
    (Except.error e : Except ε α).bind f = .error e := rfl

/-- C3 (amended): with two or more tokens, `parse_tlt_expression` raises
`NoOperatorFound` when no token is an operator, and also when the selected
split operator sits at index 0 (`if not pos:` treats index `0` like
`None`); a lone operator token is not caught there: it reaches
`float(tokens[0])` and raises a number-conversion `ValueError` instead. -/
theorem C3_noOperatorFound_characterization :
    (∀ (n : Nat) (ts : List (List Char)), 2 ≤ ts.length →
        (∀ t ∈ ts, PRECEDENCE t = none) →
        parse_tltF (n + 1) ts = .error .noOperatorFound) ∧
    (∀ (n : Nat) (ts : List (List Char)), 2 ≤ ts.length →
        get_operator ts = some 0 →
        parse_tltF (n + 1) ts = .error .noOperatorFound) ∧
    (∀ (n : Nat) (op : List Char) (r : Nat), PRECEDENCE op = some r →
        parse_tltF (n + 1) [op] = .error (.numberFormat op)) := by
  refine ⟨?_, ?_, ?_⟩
  · intro n ts hlen hnone
    rcases ts with _ | ⟨a, _ | ⟨b, l⟩⟩
    · simp at hlen
    · simp at hlen
    · rw [parse_tltF_multi, (get_operator_none_iff _).mpr hnone]
  · intro n ts hlen hzero
    rcases ts with _ | ⟨a, _ | ⟨b, l⟩⟩
    · simp at hlen
    · simp at hlen
    · rw [parse_tltF_multi, hzero]
      rfl
  · intro n op r hop
    rcases PRECEDENCE_some_cases hop with rfl | rfl | rfl | rfl | rfl <;> rfl

/-- C3 counterexample: the claim says a lone Operator token fails with
`NoOperatorFound`; on `['-']` the code instead reaches `float('-')`, which
raises the number-conversion `ValueError`. -/
theorem C3_counterexample :
    parse_tltF 5 [['-']] = .error (.numberFormat ['-']) := rfl

/-- Witness for C3 at concrete inputs: two numbers with no operator, an
operator-first pair (split index 0), and a lone `+`. -/
theorem C3_witness :
    parse_tltF 1 [['1'], ['2']] = .error .noOperatorFound ∧
    parse_tltF 1 [['-'], ['1']] = .error .noOperatorFound ∧
    parse_tltF 1 [['+']] = .error (.numberFormat ['+']) :=
  ⟨C3_noOperatorFound_characterization.1 0 [['1'], ['2']] (by decide) (by decide),
   C3_noOperatorFound_characterization.2.1 0 [['-'], ['1']] (by decide) (by decide),
   C3_noOperatorFound_characterization.2.2 0 ['+'] 3 rfl⟩

/-- Both entry points of the tree builder only ever return structurally
well-formed trees (any fuel). -/
theorem parse_wf : ∀ n : Nat,
    (∀ s t, parseF n s = .ok t → wellFormed t = true) ∧
    (∀ ts t, parse_tltF n ts = .ok t → wellFormed t = true) := by
  intro n
  induction n with
  | zero =>
    constructor
    · intro s t H; cases H
    · intro ts t H; cases H
  | succ n ih =>
    constructor
    · intro s t H
      rw [parseF_succ] at H
      rcases hts : create_toplevel_tokens s with e | ts <;> rw [hts] at H
      · cases H
      · rw [exceptBind_ok] at H
        exact ih.2 ts t H
    · intro ts t H
      rcases ts with _ | ⟨t1, _ | ⟨t2, l⟩⟩
      · rw [parse_tltF_nil] at H; cases H
      · rcases t1 with _ | ⟨c, cs⟩
        · rw [parse_tltF_emptyTok] at H; cases H
        · rw [parse_tltF_single] at H
          by_cases hb : c = '(' ∧ (c :: cs).getLast? = some ')'
          · rw [if_pos hb] at H
            exact ih.1 _ t H
          · rw [if_neg hb] at H
            rcases hq : parseNum (c :: cs) with _ | q <;> rw [hq] at H
            · cases H
            · cases H; rfl
      · rw [parse_tltF_multi] at H
        rcases hop : get_operator (t1 :: t2 :: l) with _ | pos <;>
          simp only [hop] at H
        · cases H
        · by_cases hpos : pos = 0
          · rw [if_pos hpos] at H; cases H
          · rw [if_neg hpos] at H
            rcases hl : parse_tltF n ((t1 :: t2 :: l).take pos) with e | lt <;> rw [hl] at H
            · rw [exceptBind_error] at H; cases H
            · rw [exceptBind_ok] at H
              rcases hr : parse_tltF n ((t1 :: t2 :: l).drop (pos + 1)) with e | rt <;>
                rw [hr] at H
              · rw [exceptBind_error] at H; cases H
              · rw [exceptBind_ok] at H
                cases H
                have hwl := ih.2 _ _ hl
                have hwr := ih.2 _ _ hr
                obtain ⟨r, hrk, _, _⟩ := (get_operator_some_iff _ pos).mp hop
                have hko : knownOp ((t1 :: t2 :: l).getD pos []) = true := by
                  rw [knownOp, hrk]; rfl
                simp only [wellFormed, hko, hwl, hwr, Bool.and_self, Bool.and_true,
                  Bool.true_and]

/-- C10: every tree returned by `parse` (at any fuel, from any input
string) satisfies the structural invariant: leaves hold a float and have
no children, internal nodes hold one of the five operators and have
exactly two non-null children, recursively. -/
theorem C10_parse_returns_wellFormed (n : Nat) (s : List Char) (t : BSTNode)
    (h : parseF n s = .ok t) : wellFormed t = true :=
  (parse_wf n).1 s t h

/-- Witness for C10: parsing `"1 + 2"` returns a concrete tree, and the
theorem instance shows it well-formed. -/
theorem C10_witness :
    wellFormed (.mkLR (.mk0 (.inr 1)) (.inl ['+']) (.mk0 (.inr 2))) = true :=
  C10_parse_returns_wellFormed 5 ("1 + 2".toList)
    (.mkLR (.mk0 (.inr 1)) (.inl ['+']) (.mk0 (.inr 2))) (by decide)

/-! ## The bracket scanner -/

theorem pdelta_cons (c : Char) (cs : List Char) :
    pdelta (c :: cs) = pdelta [c] + pdelta cs := by
  have h1 : ∀ a : Char, (List.count a (c :: cs) : Int) = List.count a [c] + List.count a cs := by
    intro a
    rw [List.count_cons, List.count_cons, List.count_nil]
    push_cast
    ring
  unfold pdelta
  rw [h1, h1]
  ring

theorem ifCounter_eq (cur : Int) (c : Char) :
    (if c = '(' then cur + 1 else if c = ')' then cur - 1 else cur) = cur + pdelta [c] := by
  by_cases h1 : c = '('
  · subst h1
    rw [if_pos rfl, show pdelta ['('] = 1 from by decide]
  · by_cases h2 : c = ')'
    · subst h2
      rw [if_neg (by decide), if_pos rfl, show pdelta [')'] = -1 from by decide]
      ring
    · rw [if_neg h1, if_neg h2, show pdelta [c] = 0 from ?_]
      · ring
      · unfold pdelta
        rw [List.count_cons, List.count_cons, List.count_nil]
        have e1 : ¬('(' = c) := fun h => h1 h.symm
        have e2 : ¬(')' = c) := fun h => h2 h.symm
        simp [e1, e2, h1, h2]

theorem bracketAux_cons (cur : Int) (c : Char) (cs : List Char) :
    bracketAux cur (c :: cs) =
      if cur + pdelta [c] = 0 then some 0
      else (bracketAux (cur + pdelta [c]) cs).map (· + 1) := by
  show (if (if c = '(' then cur + 1 else if c = ')' then cur - 1 else cur) = 0 then some 0
    else (bracketAux (if c = '(' then cur + 1 else if c = ')' then cur - 1 else cur) cs).map
      (· + 1)) = _
  rw [ifCounter_eq]

theorem bracketAux_some_iff :
    ∀ (rest : List Char) (cur : Int) (j : Nat),
      bracketAux cur rest = some j ↔
        (j < rest.length ∧ cur + pdelta (rest.take (j + 1)) = 0 ∧
          ∀ i, i < j → cur + pdelta (rest.take (i + 1)) ≠ 0) := by
  intro rest
  induction rest with
  | nil =>
    intro cur j
    constructor
    · intro H; cases H
    · rintro ⟨hj, _, _⟩; simp at hj
  | cons c cs ih =>
    intro cur j
    rw [bracketAux_cons]
    by_cases h0 : cur + pdelta [c] = 0
    · rw [if_pos h0]
      constructor
      · intro H
        cases H
        refine ⟨by simp, ?_, ?_⟩
        · rw [show (c :: cs).take (0 + 1) = [c] from rfl]
          exact h0
        · intro i hi; omega
      · rintro ⟨hj, hz, hfirst⟩
        rcases j with _ | j'
        · rfl
        · exfalso
          apply hfirst 0 (Nat.succ_pos j')
          rw [show (c :: cs).take (0 + 1) = [c] from rfl]
          exact h0
    · rw [if_neg h0]
      constructor
      · intro H
        rcases hb : bracketAux (cur + pdelta [c]) cs with _ | j' <;> rw [hb] at H
        · cases H
        · simp only [Option.map_some'] at H
          cases H
          obtain ⟨h1, h2, h3⟩ := (ih (cur + pdelta [c]) j').mp hb
          refine ⟨by simp; omega, ?_, ?_⟩
          · rw [List.take_succ_cons, pdelta_cons]
            omega
          · intro i hi
            rcases i with _ | i'
            · rw [show (c :: cs).take (0 + 1) = [c] from rfl]
              exact h0
            · have := h3 i' (by omega)
              rw [List.take_succ_cons, pdelta_cons]
              omega
      · rintro ⟨hj, hz, hfirst⟩
        rcases j with _ | j'
        · exfalso
          apply h0
          rw [show (c :: cs).take (0 + 1) = [c] from rfl] at hz
          exact hz
        · have hss : bracketAux (cur + pdelta [c]) cs = some j' := by
            apply (ih (cur + pdelta [c]) j').mpr
            refine ⟨by simp at hj; omega, ?_, ?_⟩
            · rw [List.take_succ_cons, pdelta_cons] at hz
              omega
            · intro i hi
              have := hfirst (i + 1) (by omega)
              rw [List.take_succ_cons, pdelta_cons] at this
              omega
          rw [hss]
          rfl

theorem bracketAux_none_iff :
    ∀ (rest : List Char) (cur : Int),
      bracketAux cur rest = none ↔
        ∀ i, i < rest.length → cur + pdelta (rest.take (i + 1)) ≠ 0 := by
  intro rest
  induction rest with
  | nil =>
    intro cur
    constructor
    · intro _ i hi; simp at hi
    · intro _; rfl
  | cons c cs ih =>
    intro cur
    rw [bracketAux_cons]
    by_cases h0 : cur + pdelta [c] = 0
    · rw [if_pos h0]
      constructor
      · intro H; cases H
      · intro H
        exfalso
        apply H 0 (by simp)
        rw [show (c :: cs).take (0 + 1) = [c] from rfl]
        exact h0
    · rw [if_neg h0]
      constructor
      · intro H i hi
        rcases i with _ | i'
        · rw [show (c :: cs).take (0 + 1) = [c] from rfl]
          exact h0
        · rcases hb : bracketAux (cur + pdelta [c]) cs with _ | j' <;> rw [hb] at H
          · have := (ih (cur + pdelta [c])).mp hb i' (by simp at hi; omega)
            rw [List.take_succ_cons, pdelta_cons]
            omega
          · cases H
      · intro H
        rw [(ih (cur + pdelta [c])).mpr ?_]
        · rfl
        · intro i hi
          have := H (i + 1) (by simp; omega)
          rw [List.take_succ_cons, pdelta_cons] at this
          omega

/-- C8 (amended): the bracket scanner on a string starting with `'('`
returns the prefix through the position where the depth counter first
reaches 0 (inclusive), fails with `UnbalancedBrackets` when the counter
never reaches 0, and fails with `NotABracketExpression` on a nonempty
string not starting with `'('` (the empty string raises `IndexError`
instead, see the counterexample); including the three concrete examples
of the claim. -/
theorem C8_bracket_scanner :
    (∀ (rest : List Char) (j : Nat), j < rest.length →
        1 + pdelta (rest.take (j + 1)) = 0 →
        (∀ i, i < j → 1 + pdelta (rest.take (i + 1)) ≠ 0) →
        get_bracket_token ('(' :: rest) = .ok (('(' :: rest).take (j + 2))) ∧
    (∀ rest : List Char, (∀ i, i < rest.length → 1 + pdelta (rest.take (i + 1)) ≠ 0) →
        get_bracket_token ('(' :: rest) = .error (.unbalancedBrackets ('(' :: rest))) ∧
    (∀ (c : Char) (rest : List Char), c ≠ '(' →
        get_bracket_token (c :: rest) = .error (.notABracketExpression (c :: rest))) ∧
    (get_bracket_token ("((1 + 2) + 3) + 4".toList) = .ok ("((1 + 2) + 3)".toList) ∧
      get_bracket_token ("1 + (2 + 3)".toList) =
        .error (.notABracketExpression ("1 + (2 + 3)".toList)) ∧
      get_bracket_token ("((1 + 2) +".toList) =
        .error (.unbalancedBrackets ("((1 + 2) +".toList))) := by
  refine ⟨?_, ?_, ?_, rfl, rfl, rfl⟩
  · intro rest j hj hz hfirst
    show (match bracketAux 1 rest with
      | some j => Except.ok (('(' :: rest).take (j + 2))
      | none => Except.error (Err.unbalancedBrackets ('(' :: rest))) = _
    rw [(bracketAux_some_iff rest 1 j).mpr ⟨hj, hz, hfirst⟩]
  · intro rest hall
    show (match bracketAux 1 rest with
      | some j => Except.ok (('(' :: rest).take (j + 2))
      | none => Except.error (Err.unbalancedBrackets ('(' :: rest))) = _
    rw [(bracketAux_none_iff rest 1).mpr hall]
  · intro c rest hc
    show (if c = '(' then
        match bracketAux 1 rest with
        | some j => Except.ok ((c :: rest).take (j + 2))
        | none => Except.error (Err.unbalancedBrackets (c :: rest))
      else Except.error (Err.notABracketExpression (c :: rest))) = _
    rw [if_neg hc]

/-- C8 counterexample: on the empty string (which does not start with
`'('`) the scanner indexes `string[0]` and raises `IndexError`, not the
`NotABracketExpression` `ValueError` the claim assigns to every string
not starting with `'('`. -/
theorem C8_counterexample : get_bracket_token [] = .error .indexError := rfl

/-- Witness for C8 at concrete inputs: a balanced prefix, an unbalanced
string and a string not starting with `'('`. -/
theorem C8_witness :
    get_bracket_token ("()x".toList) = .ok ("()".toList) ∧
    get_bracket_token ("((".toList) = .error (.unbalancedBrackets ("((".toList)) ∧
    get_bracket_token ("x(".toList) = .error (.notABracketExpression ("x(".toList)) :=
  ⟨C8_bracket_scanner.1 (")x".toList) 0 (by decide) (by decide) (by intro i hi; omega),
   C8_bracket_scanner.2.1 ("(".toList) (by decide),
   C8_bracket_scanner.2.2.1 'x' ("(".toList) (by decide)⟩

theorem gbt_not_paren (c : Char) (rest : List Char) (hc : c ≠ '(') :
    get_bracket_token (c :: rest) = .error (.notABracketExpression (c :: rest)) := by
  show (if c = '(' then
      match bracketAux 1 rest with
      | some j => Except.ok ((c :: rest).take (j + 2))
      | none => Except.error (Err.unbalancedBrackets (c :: rest))
    else Except.error (Err.notABracketExpression (c :: rest))) = _
  rw [if_neg hc]

theorem matchNumber_none {c : Char} (rest : List Char) (h : ¬ c.isDigit = true) :
    matchNumber (c :: rest) = none := by
  simp only [matchNumber]
  rw [List.takeWhile_cons_of_neg h]
  rfl

/-- C7: whenever the tokenizer's remaining input starts with a character
that is not a space, a digit, an operator or `'('`, it fails with the
`ValueError` of the bracket scanner (the code's realization of
`MalformedInput`), whose message carries the remaining input starting at
the offending character; in particular parsing `"1 & 2"` fails that way,
with the error identifying `"& 2"`. -/
theorem C7_malformed_input :
    (∀ (c : Char) (rest : List Char), c ≠ ' ' → c.isDigit = false → c ∉ opChars → c ≠ '(' →
        create_toplevel_tokens (c :: rest) = .error (.notABracketExpression (c :: rest))) ∧
    create_toplevel_tokens ("1 & 2".toList) = .error (.notABracketExpression ("& 2".toList)) ∧
    (∀ n : Nat, parseF (n + 1) ("1 & 2".toList) =
      .error (.notABracketExpression ("& 2".toList))) := by
  refine ⟨?_, rfl, fun n => rfl⟩
  intro c rest hsp hdig hop hpar
  show tokenizeF (c :: rest).length (c :: rest) = _
  rw [List.length_cons, tokenizeF_cons, if_neg hsp,
    matchNumber_none rest (by simp [hdig])]
  show (if c ∈ opChars then (tokenizeF rest.length rest).map ([c] :: ·)
    else
      match get_bracket_token (c :: rest) with
      | .ok b => (tokenizeF rest.length ((c :: rest).drop b.length)).map (b :: ·)
      | .error e => .error e) = _
  rw [if_neg hop, gbt_not_paren c rest hpar]

/-- Witness for C7: the single bad character `'&'`. -/
theorem C7_witness :
    create_toplevel_tokens ['&'] = .error (.notABracketExpression ['&']) :=
  C7_malformed_input.1 '&' [] (by decide) (by decide) (by decide) (by decide)

/-- C2 counterexample: `evaluate(parse("1 / 0"))` does not return positive
infinity (or any value): Python division raises `ZeroDivisionError`, so
evaluation fails. -/
theorem C2_counterexample :
    evaluate_stringF 9 ("1 / 0".toList) = .error .zeroDivision := by decide

/-- C2 (amended): `evaluate` does have a failure mode: a division whose
right operand evaluates to zero raises `ZeroDivisionError` (Python raises
for float division by zero instead of producing infinity); on
`parse("1 / 0")` the parse itself succeeds and the evaluation fails. -/
theorem C2_division_by_zero_raises :
    (∀ (l r : BSTNode) (a : ℚ), evaluate l = .ok a → evaluate r = .ok 0 →
        evaluate (.mkLR l (.inl ['/']) r) = .error .zeroDivision) ∧
    parseF 9 ("1 / 0".toList) = .ok (.mkLR (.mk0 (.inr 1)) (.inl ['/']) (.mk0 (.inr 0))) := by
  constructor
  · intro l r a hl hr
    show ((evaluate l).bind fun a => (evaluate r).bind fun b =>
      if b = 0 then .error .zeroDivision else .ok (qdiv a b)) = _
    rw [hl, exceptBind_ok, hr, exceptBind_ok, if_pos rfl]
  · decide

/-- Witness for C2's amended statement at a concrete division. -/
theorem C2_witness :
    evaluate (.mkLR (.mk0 (.inr 5)) (.inl ['/']) (.mk0 (.inr 0))) = .error .zeroDivision :=
  C2_division_by_zero_raises.1 (.mk0 (.inr 5)) (.mk0 (.inr 0)) 5 rfl rfl

/-- C4: chained equal-precedence operators evaluate left-to-right:
`1 + 2 + 3 = 6`, `10 - 3 - 2 = 5`, `8 / 4 / 2 = 1` (all three values are
exact in floating point, so the rational model agrees with the source). -/
theorem C4_left_to_right_chains :
    evaluate_stringF 9 ("1 + 2 + 3".toList) = .ok 6 ∧
    evaluate_stringF 9 ("10 - 3 - 2".toList) = .ok 5 ∧
    evaluate_stringF 9 ("8 / 4 / 2".toList) = .ok 1 :=
  ⟨by decide, by decide, by decide⟩

/-- C5 counterexample: the canonical form of `parse("1 + 4 - 2 * (3.0 - 2) - 1")`
renders every leaf as a Python float (`1.0`, not `1`), as the source's own
doctest records, so it differs from the string the claim asserts. -/
theorem C5_counterexample :
    (parseF 9 ("1 + 4 - 2 * (3.0 - 2) - 1".toList)).map stringify =
      .ok ("(((1.0 + 4.0) - (2.0 * (3.0 - 2.0))) - 1.0)".toList) ∧
    "(((1.0 + 4.0) - (2.0 * (3.0 - 2.0))) - 1.0)".toList ≠
      "(((1 + 4) - (2 * (3 - 2))) - 1)".toList :=
  ⟨by decide, by decide⟩

/-- C5 (amended): a leaf renders as the Python float representation of its
value (integral values get a trailing `.0`); an internal node renders as
`(<left> <op> <right>)` with single spaces; the example string is
`"(((1.0 + 4.0) - (2.0 * (3.0 - 2.0))) - 1.0)"`. -/
theorem C5_stringify_format :
    (∀ q : ℚ, stringify (.mk0 (.inr q)) = formatNum q) ∧
    (∀ (l r : BSTNode) (o : List Char),
        stringify (.mkLR l (.inl o) r) =
          '(' :: stringify l ++ ' ' :: o ++ ' ' :: stringify r ++ [')']) ∧
    (parseF 9 ("1 + 4 - 2 * (3.0 - 2) - 1".toList)).map stringify =
      .ok ("(((1.0 + 4.0) - (2.0 * (3.0 - 2.0))) - 1.0)".toList) :=
  ⟨fun _ => rfl, fun _ _ _ => rfl, by decide⟩

/-- Witness for C5's amended statement at a concrete internal node. -/
theorem C5_witness :
    stringify (.mkLR (.mk0 (.inr 1)) (.inl ['+']) (.mk0 (.inr 2))) =
      '(' :: stringify (.mk0 (.inr (1 : ℚ))) ++ ' ' :: ['+'] ++
        ' ' :: stringify (.mk0 (.inr (2 : ℚ))) ++ [')'] :=
  C5_stringify_format.2.1 (.mk0 (.inr 1)) (.mk0 (.inr 2)) ['+']

/-- C6 counterexample: the valid tree consisting of the single leaf `-1.0`
does not round-trip: its canonical form `"-1.0"` re-tokenizes as the
operator `-` followed by the number `1.0`, and the re-parse fails with
`NoOperatorFound`, while evaluating the tree itself succeeds. -/
theorem C6_counterexample :
    (parseF 9 (stringify (BSTNode.mk0 (.inr (-1))))).bind evaluate =
      .error .noOperatorFound ∧
    evaluate (BSTNode.mk0 (.inr (-1))) = .ok (-1) :=
  ⟨by decide, by decide⟩

/-! ## Tokenizer composition lemmas -/

theorem takeWhile_append_of (p : Char → Bool) (ds rest : List Char)
    (hds : ∀ c ∈ ds, p c = true)
    (hrest : ∀ c, rest.head? = some c → p c = false) :
    (ds ++ rest).takeWhile p = ds ∧ (ds ++ rest).dropWhile p = rest := by
  induction ds with
  | nil =>
    simp only [List.nil_append]
    cases rest with
    | nil => exact ⟨rfl, rfl⟩
    | cons c cs =>
      have hc := hrest c rfl
      constructor
      · rw [List.takeWhile_cons_of_neg (by simp [hc])]
      · rw [List.dropWhile_cons_of_neg (by simp [hc])]
  | cons d ds ih =>
    have hd : p d = true := hds d (List.mem_cons_self d ds)
    obtain ⟨h1, h2⟩ := ih (fun c hc => hds c (List.mem_cons_of_mem d hc))
    constructor
    · rw [List.cons_append, List.takeWhile_cons_of_pos hd, h1]
    · rw [List.cons_append, List.dropWhile_cons_of_pos hd, h2]

theorem matchNumber_length {s num : List Char} (h : matchNumber s = some num) :
    0 < num.length ∧ num.length ≤ s.length := by
  simp only [matchNumber] at h
  by_cases hds : s.takeWhile (·.isDigit) = []
  · rw [if_pos hds] at h; cases h
  · rw [if_neg hds] at h
    have hlen : (s.takeWhile (·.isDigit)).length ≤ s.length :=
      (List.takeWhile_sublist _).length_le
    have hpos : 0 < (s.takeWhile (·.isDigit)).length := List.length_pos.mpr hds
    have hsplit : (s.takeWhile (·.isDigit)).length + (s.dropWhile (·.isDigit)).length
        = s.length := by
      rw [← List.length_append, List.takeWhile_append_dropWhile]
    split at h
    · rename_i r2 heq
      rw [heq] at hsplit
      have hr2 : (r2.takeWhile (·.isDigit)).length ≤ r2.length :=
        (List.takeWhile_sublist _).length_le
      by_cases hfs : r2.takeWhile (·.isDigit) = []
      · rw [if_pos hfs] at h
        cases h
        exact ⟨hpos, hlen⟩
      · rw [if_neg hfs] at h
        cases h
        simp only [List.length_append, List.length_cons] at hsplit ⊢
        omega
    · cases h
      exact ⟨hpos, hlen⟩

theorem gbt_paren (rest : List Char) :
    get_bracket_token ('(' :: rest) =
      match bracketAux 1 rest with
      | some j => .ok (('(' :: rest).take (j + 2))
      | none => .error (.unbalancedBrackets ('(' :: rest)) := rfl

theorem gbt_length {s b : List Char} (h : get_bracket_token s = .ok b) :
    0 < b.length ∧ b.length ≤ s.length := by
  rcases s with _ | ⟨c, rest⟩
  · cases h
  · by_cases hc : c = '('
    · subst hc
      rw [gbt_paren] at h
      rcases hb : bracketAux 1 rest with _ | j <;> rw [hb] at h
      · cases h
      · cases h
        rw [List.length_take]
        constructor
        · have : 0 < ('(' :: rest).length := by simp
          omega
        · exact Nat.min_le_right _ _
    · rw [gbt_not_paren c rest hc] at h
      cases h

theorem tokenizeF_fuel :
    ∀ (n : Nat) (s : List Char), s.length ≤ n → ∀ m, s.length ≤ m →
      tokenizeF n s = tokenizeF m s := by
  intro n
  induction n with
  | zero =>
    intro s hn m hm
    have : s = [] := List.length_eq_zero.mp (Nat.le_zero.mp hn)
    subst this
    rw [tokenizeF_nil, tokenizeF_nil]
  | succ n ih =>
    intro s hn m hm
    rcases s with _ | ⟨c, rest⟩
    · rw [tokenizeF_nil, tokenizeF_nil]
    · rcases m with _ | m'
      · simp at hm
      · rw [tokenizeF_cons, tokenizeF_cons]
        simp only [List.length_cons] at hn hm
        by_cases hsp : c = ' '
        · rw [if_pos hsp, if_pos hsp]
          exact ih rest (by omega) m' (by omega)
        · rw [if_neg hsp, if_neg hsp]
          rcases hmn : matchNumber (c :: rest) with _ | num
          · dsimp only
            by_cases hop : c ∈ opChars
            · rw [if_pos hop, if_pos hop]
              rw [ih rest (by omega) m' (by omega)]
            · rw [if_neg hop, if_neg hop]
              rcases hgb : get_bracket_token (c :: rest) with e | b
              · rfl
              · dsimp only
                obtain ⟨hb1, hb2⟩ := gbt_length hgb
                rw [ih ((c :: rest).drop b.length) (by simp; omega) m' (by simp; omega)]
          · dsimp only
            obtain ⟨hn1, hn2⟩ := matchNumber_length hmn
            rw [ih ((c :: rest).drop num.length) (by simp; omega) m' (by simp; omega)]

/-- C9: tokenizing `"1 + 2 - 35 / (7 * 5)"` yields exactly the seven
tokens of the claim, in order (number, operator, number, operator,
number, operator, bracket group), and a leading space produces no token. -/
theorem C9_tokenize_example :
    create_toplevel_tokens ("1 + 2 - 35 / (7 * 5)".toList) =
      .ok ["1".toList, "+".toList, "2".toList, "-".toList, "35".toList, "/".toList,
        "(7 * 5)".toList] ∧
    (∀ rest : List Char, create_toplevel_tokens (' ' :: rest) = create_toplevel_tokens rest) := by
  refine ⟨rfl, fun rest => ?_⟩
  show tokenizeF (' ' :: rest).length (' ' :: rest) = _
  rw [List.length_cons, tokenizeF_cons, if_pos rfl]
  rfl

/-- Witness for C9's whitespace conjunct. -/
theorem C9_witness :
    create_toplevel_tokens (" 1".toList) = create_toplevel_tokens ("1".toList) :=
  C9_tokenize_example.2 ("1".toList)

/-! ## Canonical-form round-trip machinery -/

theorem pdelta_append (a b : List Char) : pdelta (a ++ b) = pdelta a + pdelta b := by
  unfold pdelta
  rw [List.count_append, List.count_append]
  push_cast
  ring

theorem isNumeral_ne_nil {s : List Char} (h : isNumeral s = true) : s ≠ [] := by
  intro e
  rw [e] at h
  exact absurd h (by decide)

theorem isNumeral_head {c : Char} {cs : List Char} (h : isNumeral (c :: cs) = true) :
    c.isDigit = true := by
  by_contra hc
  simp only [isNumeral, Bool.and_eq_true] at h
  obtain ⟨h1, _⟩ := h
  rw [List.takeWhile_cons_of_neg (by simpa using hc)] at h1
  simp at h1

theorem isNumeral_elim {s : List Char} (h : isNumeral s = true) :
    (s ≠ [] ∧ ∀ c ∈ s, c.isDigit = true) ∨
      (∃ ds fs, s = ds ++ '.' :: fs ∧ ds ≠ [] ∧ fs ≠ [] ∧
        (∀ c ∈ ds, c.isDigit = true) ∧ (∀ c ∈ fs, c.isDigit = true)) := by
  simp only [isNumeral, Bool.and_eq_true] at h
  obtain ⟨h1, h2⟩ := h
  have hds : s.takeWhile (·.isDigit) ≠ [] := by
    intro e
    rw [e] at h1
    simp at h1
  split at h2
  · left
    rename_i heq
    have hs : s.takeWhile (·.isDigit) = s := by
      have hsd := List.takeWhile_append_dropWhile (·.isDigit) s
      rw [heq, List.append_nil] at hsd
      exact hsd
    constructor
    · intro e
      rw [e] at hds
      exact hds (by simp)
    · intro c hc
      rw [← hs] at hc
      exact List.mem_takeWhile_imp hc
  · rename_i r2 heq
    right
    simp only [Bool.and_eq_true] at h2
    refine ⟨s.takeWhile (·.isDigit), r2, ?_, hds, ?_, ?_, ?_⟩
    · have hsd := List.takeWhile_append_dropWhile (·.isDigit) s
      rw [heq] at hsd
      exact hsd.symm
    · intro e
      rw [e] at h2
      simp at h2
    · intro c hc
      exact List.mem_takeWhile_imp hc
    · intro c hc
      exact List.all_eq_true.mp h2.2 c hc
  · cases h2

theorem numeral_no_paren {s : List Char} (h : isNumeral s = true) :
    ∀ c ∈ s, c ≠ '(' ∧ c ≠ ')' := by
  have hdig : ∀ c : Char, c.isDigit = true → c ≠ '(' ∧ c ≠ ')' := by
    intro c hc
    constructor <;> intro e <;> rw [e] at hc <;> exact absurd hc (by decide)
  rcases isNumeral_elim h with ⟨_, hall⟩ | ⟨ds, fs, rfl, _, _, hdall, hfall⟩
  · exact fun c hc => hdig c (hall c hc)
  · intro c hc
    rcases List.mem_append.mp hc with hc | hc
    · exact hdig c (hdall c hc)
    · rcases hc with _ | hc
      · exact ⟨by decide, by decide⟩
      · exact hdig c (hfall c (by assumption))

theorem matchNumber_numeral {nm : List Char} (rest : List Char) (h : isNumeral nm = true)
    (hrest : ∀ c, rest.head? = some c → c.isDigit = false ∧ c ≠ '.') :
    matchNumber (nm ++ rest) = some nm := by
  rcases isNumeral_elim h with ⟨hne, hall⟩ | ⟨ds, fs, rfl, hds, hfs, hdall, hfall⟩
  · obtain ⟨e1, e2⟩ :=
      takeWhile_append_of (·.isDigit) nm rest hall (fun c hc => (hrest c hc).1)
    simp only [matchNumber, e1, e2]
    rw [if_neg hne]
    rcases rest with _ | ⟨c, cs⟩
    · rfl
    · obtain ⟨_, hc2⟩ := hrest c rfl
      split
      · rename_i r2 heq
        cases heq
        exact absurd rfl hc2
      · rfl
  · have hassoc : (ds ++ '.' :: fs) ++ rest = ds ++ '.' :: (fs ++ rest) := by simp
    rw [hassoc]
    obtain ⟨e1, e2⟩ := takeWhile_append_of (·.isDigit) ds ('.' :: (fs ++ rest)) hdall
      (fun c hc => by cases hc; decide)
    obtain ⟨f1, _⟩ :=
      takeWhile_append_of (·.isDigit) fs rest hfall (fun c hc => (hrest c hc).1)
    simp only [matchNumber, e1, e2]
    rw [if_neg hds]
    show (if (fs ++ rest).takeWhile (·.isDigit) = [] then some ds
      else some (ds ++ '.' :: (fs ++ rest).takeWhile (·.isDigit))) = some (ds ++ '.' :: fs)
    rw [f1, if_neg hfs]

theorem Bal_nil : Bal [] := by
  constructor
  · rfl
  · intro m
    rw [List.take_nil]
    decide

theorem Bal_append {a b : List Char} (ha : Bal a) (hb : Bal b) : Bal (a ++ b) := by
  obtain ⟨ha1, ha2⟩ := ha
  obtain ⟨hb1, hb2⟩ := hb
  constructor
  · rw [pdelta_append, ha1, hb1]
    ring
  · intro m
    rcases Nat.le_total m a.length with hm | hm
    · rw [List.take_append_of_le_length hm]
      exact ha2 m
    · rw [List.take_append_eq_append_take, pdelta_append,
        List.take_of_length_le hm, ha1]
      have := hb2 (m - a.length)
      omega

theorem Bal_single {c : Char} (h1 : c ≠ '(') (h2 : c ≠ ')') : Bal [c] := by
  have hp : pdelta [c] = 0 := by
    unfold pdelta
    rw [List.count_cons, List.count_cons, List.count_nil]
    have e1 : ¬('(' = c) := fun h => h1 h.symm
    have e2 : ¬(')' = c) := fun h => h2 h.symm
    simp [e1, e2, h1, h2]
  constructor
  · exact hp
  · intro m
    rcases m with _ | m'
    · rw [List.take_zero]; decide
    · rw [List.take_of_length_le (by simp)]
      omega

theorem Bal_digits {s : List Char} (h : ∀ c ∈ s, c ≠ '(' ∧ c ≠ ')') : Bal s := by
  induction s with
  | nil => exact Bal_nil
  | cons c cs ih =>
    have hc := h c (List.mem_cons_self c cs)
    have := Bal_append (Bal_single hc.1 hc.2)
      (ih fun d hd => h d (List.mem_cons_of_mem c hd))
    simpa using this

theorem Bal_wrap {i : List Char} (h : Bal i) : Bal ('(' :: i ++ [')']) := by
  obtain ⟨h1, h2⟩ := h
  constructor
  · rw [show ('(' :: i ++ [')'] : List Char) = ['('] ++ i ++ [')'] from rfl,
      pdelta_append, pdelta_append, h1, show pdelta ['('] = 1 from by decide,
      show pdelta [')'] = -1 from by decide]
    ring
  · intro m
    rcases m with _ | m'
    · rw [List.take_zero]; decide
    · rw [show ('(' :: i ++ [')'] : List Char) = '(' :: (i ++ [')']) from rfl,
        List.take_succ_cons, pdelta_cons, show pdelta ['('] = 1 from by decide]
      rcases Nat.le_total m' i.length with hm | hm
      · rw [List.take_append_of_le_length hm]
        have := h2 m'
        omega
      · rw [List.take_append_eq_append_take, List.take_of_length_le hm, pdelta_append, h1]
        have hlast : pdelta ([')'].take (m' - i.length)) = 0 ∨
            pdelta ([')'].take (m' - i.length)) = -1 := by
          rcases hk : m' - i.length with _ | k
          · left; rw [List.take_zero]; decide
          · right; rw [List.take_of_length_le (by simp)]; decide
        omega

theorem gbt_balanced {i : List Char} (h : Bal i) (rest : List Char) :
    get_bracket_token ('(' :: (i ++ ')' :: rest)) = .ok ('(' :: i ++ [')']) := by
  obtain ⟨h1, h2⟩ := h
  have htake : (i ++ ')' :: rest).take (i.length + 1) = i ++ [')'] := by
    rw [List.take_append_eq_append_take, List.take_of_length_le (by omega)]
    have e : i.length + 1 - i.length = 1 := by omega
    rw [e, show (')' :: rest).take 1 = [')'] from rfl]
  rw [gbt_paren]
  have hsome : bracketAux 1 (i ++ ')' :: rest) = some i.length := by
    apply (bracketAux_some_iff _ 1 i.length).mpr
    refine ⟨by simp, ?_, ?_⟩
    · rw [htake, pdelta_append, h1, show pdelta [')'] = -1 from by decide]
      ring
    · intro k hk
      rw [List.take_append_of_le_length (by omega)]
      have := h2 (k + 1)
      omega
  rw [hsome]
  dsimp only
  rw [show ('(' :: (i ++ ')' :: rest)).take (i.length + 2)
      = '(' :: ((i ++ ')' :: rest).take (i.length + 1)) from List.take_succ_cons]
  rw [htake, List.cons_append]

theorem tok_step_space (rest : List Char) :
    create_toplevel_tokens (' ' :: rest) = create_toplevel_tokens rest := by
  show tokenizeF (' ' :: rest).length (' ' :: rest) = _
  rw [List.length_cons, tokenizeF_cons, if_pos rfl]
  rfl

theorem tok_step_num {nm : List Char} (rest : List Char) (h : isNumeral nm = true)
    (hrest : ∀ c, rest.head? = some c → c.isDigit = false ∧ c ≠ '.') :
    create_toplevel_tokens (nm ++ rest) = (create_toplevel_tokens rest).map (nm :: ·) := by
  obtain ⟨d, nm', rfl⟩ : ∃ d nm', nm = d :: nm' := by
    rcases nm with _ | ⟨d, nm'⟩
    · exact absurd h (by decide)
    · exact ⟨d, nm', rfl⟩
  have hd : d.isDigit = true := isNumeral_head h
  show tokenizeF ((d :: nm') ++ rest).length ((d :: nm') ++ rest) = _
  rw [show ((d :: nm') ++ rest) = d :: (nm' ++ rest) from rfl, List.length_cons,
    tokenizeF_cons]
  rw [if_neg (show ¬ d = ' ' from by intro e; rw [e] at hd; exact absurd hd (by decide))]
  rw [show matchNumber (d :: (nm' ++ rest)) = some (d :: nm') from by
    have hmn := matchNumber_numeral rest h hrest
    simpa using hmn]
  dsimp only
  rw [show (d :: (nm' ++ rest)).drop (d :: nm').length = rest from by
    rw [show d :: (nm' ++ rest) = (d :: nm') ++ rest from rfl]
    exact List.drop_left _ _]
  rw [tokenizeF_fuel (nm' ++ rest).length rest (by simp) rest.length (Nat.le_refl _)]
  rfl

theorem tok_step_bracket {i : List Char} (hb : Bal i) (rest : List Char) :
    create_toplevel_tokens (('(' :: i ++ [')']) ++ rest) =
      (create_toplevel_tokens rest).map (('(' :: i ++ [')']) :: ·) := by
  have hshape : ('(' :: i ++ [')']) ++ rest = '(' :: (i ++ ')' :: rest) := by simp
  rw [hshape]
  show tokenizeF ('(' :: (i ++ ')' :: rest)).length _ = _
  rw [List.length_cons, tokenizeF_cons]
  rw [if_neg (by decide : ¬ ('(' : Char) = ' ')]
  rw [matchNumber_none _ (by decide)]
  dsimp only
  rw [if_neg (by decide : ¬ ('(' : Char) ∈ opChars)]
  rw [gbt_balanced hb rest]
  dsimp only
  rw [show ('(' :: (i ++ ')' :: rest)).drop ('(' :: i ++ [')']).length = rest from by
    rw [← hshape]
    exact List.drop_left _ _]
  rw [tokenizeF_fuel (i ++ ')' :: rest).length rest (by simp; omega) rest.length
    (Nat.le_refl _)]
  rfl

theorem tok_step_op {c : Char} (hc : c ∈ opChars) (rest : List Char) :
    create_toplevel_tokens (c :: rest) = (create_toplevel_tokens rest).map ([c] :: ·) := by
  have hcd : c.isDigit = false := by fin_cases hc <;> decide
  have hcs : ¬ c = ' ' := by fin_cases hc <;> decide
  show tokenizeF (c :: rest).length (c :: rest) = _
  rw [List.length_cons, tokenizeF_cons, if_neg hcs, matchNumber_none _ (by simp [hcd])]
  dsimp only
  rw [if_pos hc]
  rfl

theorem goodTree_mk0 (q : ℚ) : goodTree (.mk0 (.inr q)) =
    (isNumeral (formatNum q) && decide (parseNum (formatNum q) = some q)) := rfl

theorem goodTree_mkLR (l r : BSTNode) (o : List Char) :
    goodTree (.mkLR l (.inl o) r) = (knownOp o && goodTree l && goodTree r) := rfl

theorem goodTree_mk0_inl (o : List Char) : goodTree (.mk0 (.inl o)) = false := rfl

theorem goodTree_mkL (l : BSTNode) (op : (List Char) ⊕ ℚ) :
    goodTree (.mkL l op) = false := rfl

theorem goodTree_mkR (op : (List Char) ⊕ ℚ) (r : BSTNode) :
    goodTree (.mkR op r) = false := rfl

theorem goodTree_mkLR_inr (l : BSTNode) (q : ℚ) (r : BSTNode) :
    goodTree (.mkLR l (.inr q) r) = false := rfl

theorem stringify_leaf (q : ℚ) : stringify (.mk0 (.inr q)) = formatNum q := rfl

theorem stringify_node (l r : BSTNode) (o : List Char) :
    stringify (.mkLR l (.inl o) r) =
      '(' :: stringify l ++ ' ' :: o ++ ' ' :: stringify r ++ [')'] := rfl

theorem goodTree_elim {t : BSTNode} (h : goodTree t = true) :
    (∃ q : ℚ, t = .mk0 (.inr q) ∧ isNumeral (formatNum q) = true ∧
      parseNum (formatNum q) = some q) ∨
    (∃ l o r, t = .mkLR l (.inl o) r ∧ knownOp o = true ∧ goodTree l = true ∧
      goodTree r = true) := by
  cases t with
  | mk0 op =>
    rcases op with o | q
    · rw [goodTree_mk0_inl] at h; cases h
    · left
      rw [goodTree_mk0, Bool.and_eq_true, decide_eq_true_eq] at h
      exact ⟨q, rfl, h.1, h.2⟩
  | mkL l op => rw [goodTree_mkL] at h; cases h
  | mkR op r => rw [goodTree_mkR] at h; cases h
  | mkLR l op r =>
    rcases op with o | q
    · right
      rw [goodTree_mkLR, Bool.and_eq_true, Bool.and_eq_true] at h
      exact ⟨l, o, r, rfl, h.1.1, h.1.2, h.2⟩
    · rw [goodTree_mkLR_inr] at h; cases h

theorem knownOp_elim {o : List Char} (h : knownOp o = true) :
    o = ['+'] ∨ o = ['-'] ∨ o = ['*'] ∨ o = ['/'] ∨ o = ['^'] := by
  unfold knownOp at h
  rcases ho : PRECEDENCE o with _ | r
  · rw [ho] at h; cases h
  · have := PRECEDENCE_some_cases ho
    tauto

theorem Bal_interior {l r : BSTNode} {o : List Char} (hko : knownOp o = true)
    (hl : Bal (stringify l)) (hr : Bal (stringify r)) :
    Bal (stringify l ++ ' ' :: o ++ ' ' :: stringify r) := by
  have hsp : Bal [' '] := Bal_single (by decide) (by decide)
  have ho : Bal o := by
    rcases knownOp_elim hko with rfl | rfl | rfl | rfl | rfl <;>
      exact Bal_single (by decide) (by decide)
  have e : (stringify l ++ ' ' :: o ++ ' ' :: stringify r)
      = stringify l ++ ([' '] ++ (o ++ ([' '] ++ stringify r))) := by simp
  rw [e]
  exact Bal_append hl (Bal_append hsp (Bal_append ho (Bal_append hsp hr)))

theorem Bal_stringify : ∀ t : BSTNode, goodTree t = true → Bal (stringify t) := by
  intro t
  induction t with
  | mk0 op =>
    intro h
    rcases op with o | q
    · rw [goodTree_mk0_inl] at h; cases h
    · rw [stringify_leaf]
      rw [goodTree_mk0, Bool.and_eq_true] at h
      exact Bal_digits (numeral_no_paren h.1)
  | mkL l op ih => intro h; rw [goodTree_mkL] at h; cases h
  | mkR op r ih => intro h; rw [goodTree_mkR] at h; cases h
  | mkLR l op r ihl ihr =>
    intro h
    rcases op with o | q
    · rw [goodTree_mkLR, Bool.and_eq_true, Bool.and_eq_true] at h
      obtain ⟨⟨hko, hgl⟩, hgr⟩ := h
      rw [stringify_node]
      have e : ('(' :: stringify l ++ ' ' :: o ++ ' ' :: stringify r ++ [')'])
          = '(' :: (stringify l ++ ' ' :: o ++ ' ' :: stringify r) ++ [')'] := by simp
      rw [e]
      exact Bal_wrap (Bal_interior hko (ihl hgl) (ihr hgr))
    · rw [goodTree_mkLR_inr] at h; cases h

theorem rank_stringify {t : BSTNode} (h : goodTree t = true) :
    PRECEDENCE (stringify t) = none := by
  rcases goodTree_elim h with ⟨q, rfl, hn, _⟩ | ⟨l, o, r, rfl, _, _, _⟩
  · rw [stringify_leaf]
    rcases hr : PRECEDENCE (formatNum q) with _ | r
    · rfl
    · exfalso
      rcases PRECEDENCE_some_cases hr with e | e | e | e | e <;> rw [e] at hn <;>
        exact absurd hn (by decide)
  · rw [stringify_node]
    rcases hr : PRECEDENCE ('(' :: stringify l ++ ' ' :: o ++ ' ' :: stringify r ++ [')'])
      with _ | r
    · rfl
    · exfalso
      rcases PRECEDENCE_some_cases hr with e | e | e | e | e <;> simp at e

theorem get_operator_three {a b op : List Char} (ha : PRECEDENCE a = none)
    (hb : PRECEDENCE b = none) {r : Nat} (hop : PRECEDENCE op = some r) :
    get_operator [a, op, b] = some 1 := by
  show (scanLoop [a, op, b] 3 (none, -1)).1 = some 1
  rw [show scanLoop [a, op, b] 3 (none, -1)
      = stepOp [a, op, b] 0 (stepOp [a, op, b] 1 (stepOp [a, op, b] 2 (none, -1))) from rfl]
  rw [show stepOp [a, op, b] 2 (none, -1) = (none, -1) from by
    unfold stepOp
    rw [show ([a, op, b].getD 2 []) = b from rfl, hb]]
  rw [show stepOp [a, op, b] 1 (none, -1) = (some 1, (r : Int)) from by
    unfold stepOp
    rw [show ([a, op, b].getD 1 []) = op from rfl, hop]
    dsimp only
    rw [if_pos (by omega)]]
  rw [show stepOp [a, op, b] 0 (some 1, (r : Int)) = (some 1, (r : Int)) from by
    unfold stepOp
    rw [show ([a, op, b].getD 0 []) = a from rfl, ha]]

theorem tokens_stringify (t : BSTNode) (h : goodTree t = true) (rest : List Char)
    (hrest : rest = [] ∨ ∃ c cs, rest = c :: cs ∧ c.isDigit = false ∧ c ≠ '.') :
    create_toplevel_tokens (stringify t ++ rest) =
      (create_toplevel_tokens rest).map (stringify t :: ·) := by
  have hrest' : ∀ c, rest.head? = some c → c.isDigit = false ∧ c ≠ '.' := by
    intro c hc
    rcases hrest with rfl | ⟨c', cs, rfl, h1, h2⟩
    · cases hc
    · cases hc
      exact ⟨h1, h2⟩
  rcases goodTree_elim h with ⟨q, rfl, hn, _⟩ | ⟨l, o, r, rfl, hko, hgl, hgr⟩
  · rw [stringify_leaf]
    exact tok_step_num rest hn hrest'
  · have hI := Bal_interior hko (Bal_stringify l hgl) (Bal_stringify r hgr)
    have e : stringify (BSTNode.mkLR l (.inl o) r)
        = '(' :: (stringify l ++ ' ' :: o ++ ' ' :: stringify r) ++ [')'] := by
      rw [stringify_node]; simp
    rw [e]
    exact tok_step_bracket hI rest

theorem tokens_stringify_nil (t : BSTNode) (h : goodTree t = true) :
    create_toplevel_tokens (stringify t) = .ok [stringify t] := by
  have htok := tokens_stringify t h [] (Or.inl rfl)
  rw [List.append_nil] at htok
  rw [htok]
  rfl

theorem tokens_interior {l r : BSTNode} {o : List Char} (hko : knownOp o = true)
    (hgl : goodTree l = true) (hgr : goodTree r = true) :
    create_toplevel_tokens (stringify l ++ ' ' :: o ++ ' ' :: stringify r)
      = .ok [stringify l, o, stringify r] := by
  rw [show (stringify l ++ ' ' :: o ++ ' ' :: stringify r)
      = stringify l ++ (' ' :: (o ++ ' ' :: stringify r)) from by simp]
  rw [tokens_stringify l hgl _ (Or.inr ⟨' ', o ++ ' ' :: stringify r, rfl, by decide, by decide⟩)]
  rw [tok_step_space]
  rcases knownOp_elim hko with rfl | rfl | rfl | rfl | rfl <;>
    rw [List.singleton_append, tok_step_op (by decide), tok_step_space,
      tokens_stringify_nil r hgr] <;>
    rfl

theorem needFuel_pos (t : BSTNode) : 1 ≤ needFuel t := by
  cases t <;> simp [needFuel]

theorem roundtrip_tlt :
    ∀ N : Nat, ∀ t : BSTNode, goodTree t = true → needFuel t ≤ N →
      ∀ n : Nat, needFuel t ≤ n → parse_tltF n [stringify t] = .ok t := by
  intro N
  induction N with
  | zero =>
    intro t _ hN
    have := needFuel_pos t
    omega
  | succ N ih =>
    intro t hg hN n hn
    have hnp := needFuel_pos t
    rcases goodTree_elim hg with ⟨q, rfl, hnum, hpn⟩ | ⟨l, o, r, rfl, hko, hgl, hgr⟩
    · rcases n with _ | n'
      · omega
      · rw [stringify_leaf]
        obtain ⟨c, cs, hcs⟩ : ∃ c cs, formatNum q = c :: cs := by
          rcases hfq : formatNum q with _ | ⟨c, cs⟩
          · exact absurd hfq (isNumeral_ne_nil hnum)
          · exact ⟨c, cs, rfl⟩
        rw [hcs, parse_tltF_single]
        have hcd : c.isDigit = true := isNumeral_head (hcs ▸ hnum)
        rw [if_neg ?_]
        · rw [← hcs, hpn]
        · rintro ⟨h1, _⟩
          rw [h1] at hcd
          exact absurd hcd (by decide)
    · have hne : needFuel (BSTNode.mkLR l (.inl o) r)
          = max (needFuel l) (needFuel r) + 3 := rfl
      rw [hne] at hn hN
      rcases n with _ | n1
      · omega
      rcases n1 with _ | n2
      · omega
      rcases n2 with _ | n3
      · omega
      obtain ⟨ro, hro⟩ : ∃ ro, PRECEDENCE o = some ro := by
        unfold knownOp at hko
        exact Option.isSome_iff_exists.mp hko
      have e : stringify (BSTNode.mkLR l (.inl o) r)
          = '(' :: ((stringify l ++ ' ' :: o ++ ' ' :: stringify r) ++ [')']) := by
        rw [stringify_node]; simp
      rw [e, parse_tltF_single]
      have hcond : ('(' : Char) = '(' ∧
          ('(' :: ((stringify l ++ ' ' :: o ++ ' ' :: stringify r) ++ [')'])).getLast?
            = some ')' := by
        refine ⟨rfl, ?_⟩
        rw [show ('(' :: ((stringify l ++ ' ' :: o ++ ' ' :: stringify r) ++ [')']))
            = ('(' :: (stringify l ++ ' ' :: o ++ ' ' :: stringify r)) ++ [')'] from by simp]
        exact List.getLast?_concat _
      rw [if_pos hcond]
      rw [show ((('(' :: ((stringify l ++ ' ' :: o ++ ' ' :: stringify r) ++ [')'])).drop
          1).dropLast) = stringify l ++ ' ' :: o ++ ' ' :: stringify r from by
        rw [List.drop_succ_cons, List.drop_zero, List.dropLast_concat]]
      rw [parseF_succ, tokens_interior hko hgl hgr, exceptBind_ok]
      rw [parse_tltF_multi]
      rw [get_operator_three (rank_stringify hgl) (rank_stringify hgr) hro]
      dsimp only
      rw [if_neg (by omega : ¬ (1 : Nat) = 0)]
      rw [show ([stringify l, o, stringify r].take 1) = [stringify l] from rfl]
      rw [show ([stringify l, o, stringify r].drop (1 + 1)) = [stringify r] from rfl]
      rw [show ([stringify l, o, stringify r].getD 1 []) = o from rfl]
      rw [ih l hgl (by omega) n3 (by omega), exceptBind_ok]
      rw [ih r hgr (by omega) n3 (by omega), exceptBind_ok]

/-- C6 (amended): for every structurally valid tree whose every leaf value
renders (via the float formatting) as a numeral token that `float` reads
back to the same value, re-parsing the canonical string reproduces the
tree exactly at any sufficient fuel, so
`evaluate (parse (stringify t)) = evaluate t`.  (The hypothesis is needed:
see the counterexample with a negative leaf.) -/
theorem C6_roundtrip (t : BSTNode) (h : goodTree t = true) :
    ∀ n : Nat, needFuel t + 1 ≤ n →
      parseF n (stringify t) = .ok t ∧
      (parseF n (stringify t)).bind evaluate = evaluate t := by
  intro n hn
  rcases n with _ | n'
  · omega
  have hok : parseF (n' + 1) (stringify t) = .ok t := by
    rw [parseF_succ, tokens_stringify_nil t h, exceptBind_ok]
    exact roundtrip_tlt (needFuel t) t h (Nat.le_refl _) n' (by omega)
  exact ⟨hok, by rw [hok, exceptBind_ok]⟩

/-- Witness for C6's amended statement at the concrete tree of
`1.0 + 2.0`. -/
theorem C6_witness :
    (parseF 5 (stringify (BSTNode.mkLR (.mk0 (.inr 1)) (.inl ['+']) (.mk0 (.inr 2))))).bind
        evaluate
      = evaluate (BSTNode.mkLR (.mk0 (.inr 1)) (.inl ['+']) (.mk0 (.inr 2))) :=
  (C6_roundtrip (BSTNode.mkLR (.mk0 (.inr 1)) (.inl ['+']) (.mk0 (.inr 2)))
    (by decide) 5 (by decide)).2
